import Mathlib

/-!
Verification of the ULP (unit in the last place) engine of the `neon`
library (`src/neon/ulp.py`) against its specification.

A double is embedded as its IEEE-754 binary64 bit pattern, a natural
number below `2^64` (exactly what `struct.unpack('>Q', struct.pack('>d', f))`
yields in the source).  Each Python function of `ulp.py` is translated to a
Lean function on bit patterns; the exact (extended) rational value of a
pattern replaces the host float semantics for `==` and `<` comparisons.
-/

set_option maxRecDepth 40000

namespace Neon

/-- Sign bit of a binary64 pattern (bit 63). -/
def sign (b : ℕ) : ℕ := b / 2 ^ 63

/-- Exponent field of a binary64 pattern (bits 52-62). -/
def expBits (b : ℕ) : ℕ := b / 2 ^ 52 % 2 ^ 11

/-- Mantissa field of a binary64 pattern (bits 0-51). -/
def mantissa (b : ℕ) : ℕ := b % 2 ^ 52

/-- The pattern encodes a NaN (`math.isnan`). -/
def isNaN (b : ℕ) : Prop := expBits b = 2047 ∧ mantissa b ≠ 0

/-- The pattern encodes an infinity (`math.isinf`). -/
def isInf (b : ℕ) : Prop := expBits b = 2047 ∧ mantissa b = 0

/-- The pattern encodes a finite double. -/
def isFinite (b : ℕ) : Prop := expBits b ≠ 2047

/-- The pattern encodes a zero (`+0.0` or `-0.0`). -/
def isZero (b : ℕ) : Prop := b = 0 ∨ b = 2 ^ 63

instance (b : ℕ) : Decidable (isNaN b) := by unfold isNaN; infer_instance

instance (b : ℕ) : Decidable (isInf b) := by unfold isInf; infer_instance

instance (b : ℕ) : Decidable (isFinite b) := by unfold isFinite; infer_instance

instance (b : ℕ) : Decidable (isZero b) := by unfold isZero; infer_instance

/-- Magnitude of a finite binary64 pattern in units of `2^-1074` (the
smallest positive subnormal): every finite double is an integer multiple
of `2^-1074`, and this is that integer.  Subnormals (`e = 0`) have value
`mantissa * 2^-1074`; normals have value
`(2^52 + mantissa) * 2^(e-1075) = (2^52 + mantissa) * 2^(e-1) * 2^-1074`. -/
def valMag (b : ℕ) : ℕ :=
  if expBits b = 0 then mantissa b
  else (2 ^ 52 + mantissa b) * 2 ^ (expBits b - 1)

/-- Exact signed value of a finite binary64 pattern, in units of
`2^-1074`.  Scaling by the fixed positive factor `2^1074` preserves the
equality and order that the host language's `==` and `<` compute on
doubles, so this integer stands in for the float's value throughout.
Meaningful only when the pattern is finite; NaN/infinity patterns are
gated by callers. -/
def val (b : ℕ) : ℤ :=
  if sign b = 1 then -(valMag b : ℤ) else (valMag b : ℤ)

/-- Extended value of a double: a finite value (in units of `2^-1074`),
an infinity, or NaN.  This is the codomain in which the host language
compares doubles. -/
inductive XVal where
  | negInf : XVal
  | fin : ℤ → XVal
  | posInf : XVal
  | nan : XVal
deriving DecidableEq

/-- Extended value of a bit pattern. -/
def xval (b : ℕ) : XVal :=
  if isNaN b then .nan
  else if isInf b then (if sign b = 1 then .negInf else .posInf)
  else .fin (val b)

/-- IEEE equality `a == b` of two patterns: NaN compares unequal to
everything, `-0.0 == +0.0`, and otherwise values are compared exactly. -/
def feq (a b : ℕ) : Prop := ¬ isNaN a ∧ ¬ isNaN b ∧ xval a = xval b

instance (a b : ℕ) : Decidable (feq a b) := by unfold feq; infer_instance

/-- Strict order on extended values (IEEE `<`; NaN is incomparable). -/
def xltB : XVal → XVal → Bool
  | .nan, _ => false
  | _, .nan => false
  | .negInf, .negInf => false
  | .negInf, _ => true
  | _, .negInf => false
  | .fin a, .fin b => decide (a < b)
  | .fin _, .posInf => true
  | .posInf, _ => false

/-- Embedding of the Python comparison `b < 0`. -/
def isNeg (b : ℕ) : Bool := xltB (xval b) (.fin 0)

/-- Bit pattern of `+inf` (`0x7FF0000000000000`). -/
def posInfBits : ℕ := 2 ^ 63 - 2 ^ 52

/-- Bit pattern of `-0.0` (`0x8000000000000000`). -/
def negZeroBits : ℕ := 2 ^ 63

/-- Bit pattern of `-inf` (`0xFFF0000000000000`). -/
def negInfBits : ℕ := 2 ^ 64 - 2 ^ 52

/-- Bit pattern of `1.0` (`0x3FF0000000000000`). -/
def oneBits : ℕ := 4607182418800017408

/-- Embedding of `math.nextafter(x, math.inf)`: the adjacent representable
double toward `+inf` (NaN propagates, `+inf` is a fixed point, `-0.0`
steps to the smallest positive subnormal). -/
def nextUp (b : ℕ) : ℕ :=
  if isNaN b then b
  else if b = posInfBits then b
  else if b < 2 ^ 63 then b + 1
  else if b = negZeroBits then 1
  else b - 1

/-- Embedding of `math.nextafter(x, -math.inf)`: the adjacent representable
double toward `-inf`. -/
def nextDown (b : ℕ) : ℕ :=
  if isNaN b then b
  else if b = negInfBits then b
  else if 2 ^ 63 ≤ b then b + 1
  else if b = 0 then negZeroBits + 1
  else b - 1

/-- `ulp.next`: the next representable float above `x`. -/
def next (x : ℕ) : ℕ := nextUp x

/-- `ulp.prev`: the next representable float below `x`. -/
def prev (x : ℕ) : ℕ := nextDown x

/-- Modelled from the spec: the `neon.exceptions` module is not under
`src/` (only its import and raise sites are), so the error carried by
fallible operations is the single `InvalidValue` error kind of spec
section 7. -/
inductive Err where
  | invalidValue : Err
deriving DecidableEq

instance {ε α : Type} [DecidableEq ε] [DecidableEq α] : DecidableEq (Except ε α)
  | .error e, .error f =>
      if h : e = f then isTrue (congrArg Except.error h)
      else isFalse (fun c => h (Except.error.inj c))
  | .error _, .ok _ => isFalse (fun c => Except.noConfusion c)
  | .ok _, .error _ => isFalse (fun c => Except.noConfusion c)
  | .ok a, .ok b =>
      if h : a = b then isTrue (congrArg Except.ok h)
      else isFalse (fun c => h (Except.ok.inj c))

/-- Subtraction on extended values (`inf - finite = inf`, etc.). -/
def xsub : XVal → XVal → XVal
  | .nan, _ => .nan
  | _, .nan => .nan
  | .posInf, .posInf => .nan
  | .negInf, .negInf => .nan
  | .posInf, _ => .posInf
  | .negInf, _ => .negInf
  | .fin a, .fin b => .fin (a - b)
  | .fin _, .posInf => .negInf
  | .fin _, .negInf => .posInf

/-- Absolute value on extended values. -/
def xabs : XVal → XVal
  | .nan => .nan
  | .fin q => .fin |q|
  | _ => .posInf

/-- `ulp.of`: the ULP of `x`, as an extended value in units of `2^-1074`.
The final branch of the source computes the float subtraction
`abs(math.nextafter(x, math.inf) - x)`; for a finite `x` the exact
difference of two adjacent doubles is itself representable (or `+inf`
when `nextafter` overflows to infinity), so IEEE subtraction is exact
there and is embedded as the exact extended-value difference. -/
def of (x : ℕ) : Except Err XVal :=
  if isNaN x then .error .invalidValue
  else if isInf x then .ok .posInf
  else if val x = 0 then .ok (.fin (val (nextUp 0)))
  else .ok (xabs (xsub (xval (nextUp x)) (xval x)))

/-- The nested helper `float_to_int_bits` of `ulp.diff`: reinterprets the
unsigned 64-bit pattern as a signed (two's complement) integer. -/
def float_to_int_bits (b : ℕ) : ℤ :=
  if b ≥ 2 ^ 63 then (b : ℤ) - 2 ^ 64 else (b : ℤ)

/-- `ulp.diff`: ULP distance between `a` and `b`, straight from the
source: NaN and infinity raise, equal values give 0, opposite signs give
`abs(a_bits) + abs(b_bits)`, otherwise `abs(a_bits - b_bits)`. -/
def diff (a b : ℕ) : Except Err ℤ :=
  if isNaN a ∨ isNaN b then .error .invalidValue
  else if isInf a ∨ isInf b then .error .invalidValue
  else if feq a b then .ok 0
  else if isNeg a ≠ isNeg b then
    .ok (|float_to_int_bits a| + |float_to_int_bits b|)
  else .ok |float_to_int_bits a - float_to_int_bits b|

/-- `ulp.within`: tolerance predicate; the `try/except InvalidValueError`
of the source becomes a `match` on the `Except` result of `diff`. -/
def within (a b : ℕ) (maxUlps : ℤ) : Bool :=
  if feq a b then true
  else if isNaN a ∨ isNaN b then false
  else if isInf a ∨ isInf b then decide (feq a b)
  else
    match diff a b with
    | .ok d => decide (d ≤ maxUlps)
    | .error _ => false

/-- `ulp.add`: move `n` ULPs from `x` by iterating `math.nextafter`
toward `+inf` (for `n > 0`) or `-inf` (for `n < 0`), `abs n` times. -/
def add (x : ℕ) (n : ℤ) : ℕ :=
  if n = 0 then x
  else if 0 < n then nextUp^[n.natAbs] x
  else nextDown^[n.natAbs] x

/-- Number of loop iterations performed by `ulp.add`: the source runs
`for _ in range(abs(n))`, i.e. `abs n` iterations (0 when `n = 0` via the
early return). -/
def addIterations (_x : ℕ) (n : ℤ) : ℕ := n.natAbs

/-- The monotonic signed key of spec section 3 (spec-side definition, for
the refinement claims): non-negative patterns map to themselves, negative
patterns to the negated magnitude; both zeros map to key 0. -/
def okeyN (b : ℕ) : ℤ :=
  if b < 2 ^ 63 then (b : ℤ) else -((b : ℤ) - 2 ^ 63)

/-- Key of the largest finite double, `2^63 - 2^52 - 1`. -/
def maxKey : ℤ := 2 ^ 63 - 2 ^ 52 - 1

/-! ### Basic facts about the embedding -/

theorem not_isNaN_of_isFinite {b : ℕ} (h : isFinite b) : ¬ isNaN b :=
  fun c => h c.1

theorem not_isInf_of_isFinite {b : ℕ} (h : isFinite b) : ¬ isInf b :=
  fun c => h c.1

theorem feq_refl {b : ℕ} (h : ¬ isNaN b) : feq b b := ⟨h, h, rfl⟩

theorem feq_comm {a b : ℕ} : feq a b ↔ feq b a :=
  ⟨fun h => ⟨h.2.1, h.1, h.2.2.symm⟩, fun h => ⟨h.2.1, h.1, h.2.2.symm⟩⟩

/-- Stepping up by one ULP from a finite, non-maximal pattern increments
the monotonic key and stays finite. -/
theorem nextUp_okey {b : ℕ} (hb : b < 2 ^ 64) (hf : isFinite b)
    (hk : okeyN b < maxKey) :
    nextUp b < 2 ^ 64 ∧ isFinite (nextUp b) ∧ okeyN (nextUp b) = okeyN b + 1 := by
  have hnan : ¬ isNaN b := not_isNaN_of_isFinite hf
  simp only [isNaN, isFinite, expBits, mantissa, nextUp, okeyN, maxKey,
    posInfBits, negZeroBits] at hnan hf hk ⊢
  split_ifs <;> omega

/-- Stepping down by one ULP from a finite, non-minimal pattern
decrements the monotonic key and stays finite. -/
theorem nextDown_okey {b : ℕ} (hb : b < 2 ^ 64) (hf : isFinite b)
    (hk : -maxKey < okeyN b) :
    nextDown b < 2 ^ 64 ∧ isFinite (nextDown b) ∧ okeyN (nextDown b) = okeyN b - 1 := by
  have hnan : ¬ isNaN b := not_isNaN_of_isFinite hf
  simp only [isNaN, isFinite, expBits, mantissa, nextDown, okeyN, maxKey,
    negInfBits, negZeroBits] at hnan hf hk ⊢
  split_ifs <;> omega

/-- Any finite pattern has its key in `[-maxKey, maxKey]`. -/
theorem okeyN_bound {b : ℕ} (hb : b < 2 ^ 64) (hf : isFinite b) :
    -maxKey ≤ okeyN b ∧ okeyN b ≤ maxKey := by
  unfold isFinite expBits at hf
  unfold okeyN maxKey
  split_ifs <;> push_cast <;> omega

/-- The monotonic key is injective on patterns except that both zeros
share key 0. -/
theorem okeyN_inj {b c : ℕ} (hb : b < 2 ^ 64) (hc : c < 2 ^ 64)
    (h : okeyN b = okeyN c) : b = c ∨ (isZero b ∧ isZero c) := by
  unfold okeyN at h
  unfold isZero
  split_ifs at h <;> omega

/-- Iterating `nextUp` `k` times adds `k` to the key, as long as the
final key stays at or below the largest finite key. -/
theorem iterUp_okey (k : ℕ) : ∀ b : ℕ, b < 2 ^ 64 → isFinite b →
    okeyN b + k ≤ maxKey →
    nextUp^[k] b < 2 ^ 64 ∧ isFinite (nextUp^[k] b) ∧
      okeyN (nextUp^[k] b) = okeyN b + k := by
  induction k with
  | zero => intro b hb hf _; simpa using ⟨hb, hf⟩
  | succ k ih =>
    intro b hb hf hk
    have h1 := nextUp_okey hb hf (by push_cast at hk; unfold maxKey at *; omega)
    have h2 := ih (nextUp b) h1.1 h1.2.1 (by rw [h1.2.2]; push_cast at hk ⊢; omega)
    rw [Function.iterate_succ_apply]
    refine ⟨h2.1, h2.2.1, ?_⟩
    rw [h2.2.2, h1.2.2]
    push_cast
    ring

/-- Iterating `nextDown` `k` times subtracts `k` from the key, as long as
the final key stays at or above the smallest finite key. -/
theorem iterDown_okey (k : ℕ) : ∀ b : ℕ, b < 2 ^ 64 → isFinite b →
    -maxKey ≤ okeyN b - k →
    nextDown^[k] b < 2 ^ 64 ∧ isFinite (nextDown^[k] b) ∧
      okeyN (nextDown^[k] b) = okeyN b - k := by
  induction k with
  | zero => intro b hb hf _; simpa using ⟨hb, hf⟩
  | succ k ih =>
    intro b hb hf hk
    have h1 := nextDown_okey hb hf (by push_cast at hk; unfold maxKey at *; omega)
    have h2 := ih (nextDown b) h1.1 h1.2.1 (by rw [h1.2.2]; push_cast at hk ⊢; omega)
    rw [Function.iterate_succ_apply]
    refine ⟨h2.1, h2.2.1, ?_⟩
    rw [h2.2.2, h1.2.2]
    push_cast
    ring

/-- Equal monotonic keys mean IEEE-equal doubles (for finite patterns):
the key determines the pattern except for the two zeros, which compare
equal. -/
theorem feq_of_okeyN_eq {b c : ℕ} (hb : b < 2 ^ 64) (hc : c < 2 ^ 64)
    (hfb : isFinite b) (hfc : isFinite c) (h : okeyN b = okeyN c) :
    feq b c := by
  rcases okeyN_inj hb hc h with rfl | ⟨hzb, hzc⟩
  · exact feq_refl (not_isNaN_of_isFinite hfb)
  · rcases hzb with rfl | rfl <;> rcases hzc with rfl | rfl <;> decide

theorem not_isNaN_of_isInf {b : ℕ} (h : isInf b) : ¬ isNaN b :=
  fun c => c.2 h.2

/-- Whenever `diff` succeeds, the returned distance is non-negative. -/
theorem diff_nonneg {a b : ℕ} {d : ℤ} (h : diff a b = .ok d) : 0 ≤ d := by
  unfold diff at h
  split_ifs at h <;>
    first
      | exact absurd h (fun c => Except.noConfusion c)
      | (rw [← Except.ok.inj h]; positivity)
      | (rw [← Except.ok.inj h])

/-! ### Claim theorems -/

/-- Claim C1: refuted by the code.  On the failing pair
`a = -5e-324` (pattern `2^63 + 1`) and `b = 5e-324` (pattern `1`),
`ulp.diff` returns `2^63`, while the iterative `nextafter` reference takes
exactly 2 steps from `a` to `b` (and the monotonic-key distance is 2):
the O(1) bit formula does not agree with the superseded stepping
definition on sign-crossing pairs. -/
theorem c1_diff_disagrees_with_stepping :
    diff (2 ^ 63 + 1) 1 = .ok (2 ^ 63) ∧
    add (2 ^ 63 + 1) 2 = 1 ∧
    okeyN 1 - okeyN (2 ^ 63 + 1) = 2 ∧
    (2 : ℤ) ^ 63 ≠ 2 := by
  refine ⟨by decide, by decide, by decide, by decide⟩

/-- Claim C2: refuted by the code.  For `a = -1.0`
(pattern `2^63 + oneBits`) and `b = 1.0`, `ulp.diff` returns `2^63 =
9223372036854775808`, but the sum of the magnitude keys is
`9214364837600034816`, and the code's own values for
`diff(-1.0, -0.0) + diff(0.0, 1.0)` sum to `2^64`: the two's-complement
`abs` of the raw bits is not the magnitude key, so the claimed
sign-crossing identity fails. -/
theorem c2_sign_crossing_bug :
    diff (2 ^ 63 + oneBits) oneBits = .ok 9223372036854775808 ∧
    |okeyN (2 ^ 63 + oneBits)| + |okeyN oneBits| = 9214364837600034816 ∧
    diff (2 ^ 63 + oneBits) negZeroBits = .ok 13839561654909534208 ∧
    diff 0 oneBits = .ok 4607182418800017408 ∧
    (9223372036854775808 : ℤ) ≠ 13839561654909534208 + 4607182418800017408 ∧
    (9223372036854775808 : ℤ) ≠ 9214364837600034816 := by
  refine ⟨by decide, by decide, by decide, by decide, by decide, by decide⟩

/-- Claim C3: refuted by the code.  On `x = -0.0`,
`next(x)` is the smallest positive subnormal and `ulp.diff(x, next(x))`
returns `2^63 + 1`, not 1; on `x = -5e-324` (negative adjacent to zero)
it returns `2^64 - 1`, not 1. -/
theorem c3_adjacency_bug :
    diff negZeroBits (next negZeroBits) = .ok (2 ^ 63 + 1) ∧
    diff (2 ^ 63 + 1) (next (2 ^ 63 + 1)) = .ok (2 ^ 64 - 1) ∧
    (2 : ℤ) ^ 63 + 1 ≠ 1 ∧
    (2 : ℤ) ^ 64 - 1 ≠ 1 := by
  refine ⟨by decide, by decide, by decide, by decide⟩

/-- Claim C7: `ulp.diff` is symmetric in its two arguments: every branch
of the source (the NaN and infinity gates, the equality check, the
sign-crossing test, and both absolute-value formulas) is symmetric. -/
theorem c7_diff_symm (a b : ℕ) : diff a b = diff b a := by
  have hq : feq b a ↔ feq a b := feq_comm
  by_cases h1 : isNaN a <;> by_cases h2 : isNaN b <;>
    by_cases h3 : isInf a <;> by_cases h4 : isInf b <;>
      by_cases h5 : feq a b <;>
        simp [diff, h1, h2, h3, h4, h5, hq, ne_comm, abs_sub_comm, add_comm]

/-- Claim C8: `ulp.diff x x = 0` for every finite `x`, and
`ulp.diff 0.0 (-0.0) = 0`, both through the explicit equality check of
the source. -/
theorem c8_diff_identity :
    (∀ x : ℕ, isFinite x → diff x x = .ok 0) ∧
    diff 0 negZeroBits = .ok 0 := by
  constructor
  · intro x hf
    have h := not_isNaN_of_isFinite hf
    have h2 := not_isInf_of_isFinite hf
    simp [diff, h, h2, feq_refl h]
  · decide

/-- Witness for C8 at `x = 1.0`. -/
theorem c8_diff_identity_witness : diff oneBits oneBits = .ok 0 :=
  c8_diff_identity.1 oneBits (by decide)

/-- Claim C4: `of` fails exactly on NaN; `diff` fails exactly on NaN or
infinity; `within` is total (a plain `Bool`) and returns `true` on exact
equality, `false` when either argument is NaN, the equality verdict when
either argument is infinite, and otherwise compares `diff a b` with
`maxUlps`. -/
theorem c4_error_contract :
    (∀ x : ℕ, of x = .error .invalidValue ↔ isNaN x) ∧
    (∀ a b : ℕ, diff a b = .error .invalidValue ↔
      (isNaN a ∨ isNaN b ∨ isInf a ∨ isInf b)) ∧
    (∀ a b : ℕ, ∀ m : ℤ, feq a b → within a b m = true) ∧
    (∀ a b : ℕ, ∀ m : ℤ, isNaN a ∨ isNaN b → within a b m = false) ∧
    (∀ a b : ℕ, ∀ m : ℤ, isInf a ∨ isInf b → within a b m = decide (feq a b)) ∧
    (∀ a b : ℕ, ∀ m : ℤ, ¬ isNaN a → ¬ isNaN b → ¬ isInf a → ¬ isInf b →
      ¬ feq a b → ∃ d : ℤ, diff a b = .ok d ∧ within a b m = decide (d ≤ m)) := by
  refine ⟨?_, ?_, ?_, ?_, ?_, ?_⟩
  · intro x
    unfold of
    split_ifs with h1 h2 h3 <;> simp [h1]
  · intro a b
    unfold diff
    split_ifs with h1 h2 h3 h4 <;> simp <;> tauto
  · intro a b m h
    simp [within, h]
  · intro a b m h
    have hq : ¬ feq a b := by
      rcases h with h | h
      · exact fun c => c.1 h
      · exact fun c => c.2.1 h
    simp [within, hq, h]
  · intro a b m h
    by_cases hq : feq a b
    · simp [within, hq]
    · by_cases hn : isNaN a ∨ isNaN b
      · simp [within, hq, hn]
      · simp [within, hq, hn, h]
  · intro a b m hna hnb hia hib hq
    have hn : ¬ (isNaN a ∨ isNaN b) := by tauto
    have hi : ¬ (isInf a ∨ isInf b) := by tauto
    have hdiff : diff a b = .ok (if isNeg a ≠ isNeg b
        then |float_to_int_bits a| + |float_to_int_bits b|
        else |float_to_int_bits a - float_to_int_bits b|) := by
      unfold diff
      rw [if_neg hn, if_neg hi, if_neg hq]
      by_cases hs : isNeg a ≠ isNeg b
      · rw [if_pos hs, if_pos hs]
      · rw [if_neg hs, if_neg hs]
    refine ⟨_, hdiff, ?_⟩
    unfold within
    rw [if_neg hq, if_neg hn, if_neg hi, hdiff]

/-- Witness for C4: a NaN pattern makes `diff` fail and `within` return
`false`. -/
theorem c4_error_contract_witness :
    diff (posInfBits + 1) 0 = .error .invalidValue ∧
      within (posInfBits + 1) 0 4 = false :=
  ⟨(c4_error_contract.2.1 (posInfBits + 1) 0).mpr (Or.inl (by decide)),
   c4_error_contract.2.2.2.1 (posInfBits + 1) 0 4 (Or.inl (by decide))⟩

/-- Claim C5: `of` fails exactly on NaN, returns `+inf` on infinite
input, returns the smallest positive subnormal (`fin 1`, i.e. `2^-1074`)
on both zeros, and otherwise returns `abs(nextafter(x, inf) - x)`;
`of 1.0` is `2^1022` units of `2^-1074`, i.e. `2^-52 =
2.220446049250313e-16`. -/
theorem c5_of_contract :
    (∀ x : ℕ, of x = .error .invalidValue ↔ isNaN x) ∧
    (∀ x : ℕ, isInf x → of x = .ok .posInf) ∧
    (of 0 = .ok (.fin 1) ∧ of negZeroBits = .ok (.fin 1)) ∧
    (∀ x : ℕ, ¬ isNaN x → ¬ isInf x → val x ≠ 0 →
      of x = .ok (xabs (xsub (xval (nextUp x)) (xval x)))) ∧
    of oneBits = .ok (.fin ((2 ^ 1022 : ℕ) : ℤ)) := by
  refine ⟨?_, ?_, ⟨by decide, by decide⟩, ?_, by decide⟩
  · intro x
    unfold of
    split_ifs with h1 h2 h3 <;> simp [h1]
  · intro x h
    unfold of
    rw [if_neg (not_isNaN_of_isInf h), if_pos h]
  · intro x h1 h2 h3
    unfold of
    rw [if_neg h1, if_neg h2, if_neg h3]

/-- Witness for C5 at `x = +inf`. -/
theorem c5_of_contract_witness : of posInfBits = .ok .posInf :=
  c5_of_contract.2.1 posInfBits (by decide)

/-- Claim C9: with a negative `maxUlps` budget, `within` is total and
degenerates to the IEEE equality verdict `a == b` (so `false` on NaN,
`true` on `0.0` vs `-0.0` and on equal infinities): any successful
distance is non-negative and can never be `≤ maxUlps < 0`. -/
theorem c9_within_negative_budget (a b : ℕ) (m : ℤ) (hm : m < 0) :
    within a b m = decide (feq a b) := by
  by_cases hq : feq a b
  · simp [within, hq]
  · by_cases hn : isNaN a ∨ isNaN b
    · simp [within, hq, hn]
    · by_cases hi : isInf a ∨ isInf b
      · simp [within, hq, hn, hi]
      · unfold within
        rw [if_neg hq, if_neg hn, if_neg hi]
        cases hd : diff a b with
        | error e => simp [hq]
        | ok d =>
          have h0 := diff_nonneg hd
          have hle : ¬ d ≤ m := by omega
          simp [hq, hle]

/-- Witness for C9 at `a = b = 1.0`, `maxUlps = -1`. -/
theorem c9_within_negative_budget_witness :
    within oneBits oneBits (-1) = decide (feq oneBits oneBits) :=
  c9_within_negative_budget oneBits oneBits (-1) (by decide)

/-- Claim C6: round-trip of `ulp.add`.  For finite `x` and any `n` whose
stepping path stays within the finite range (both endpoint keys within
`[-maxKey, maxKey]`), `add (add x n) (-n)` is IEEE-equal to `x`, and
bit-for-bit equal whenever `x` is not a zero (stepping up from `-0.0` and
back returns `+0.0`, the identification the stepping primitive itself
makes). -/
theorem c6_add_round_trip (x : ℕ) (n : ℤ) (hx : x < 2 ^ 64) (hf : isFinite x)
    (hlo : -maxKey ≤ okeyN x + n) (hhi : okeyN x + n ≤ maxKey) :
    feq (add (add x n) (-n)) x ∧ (¬ isZero x → add (add x n) (-n) = x) := by
  have hb := okeyN_bound hx hf
  have tail : ∀ z : ℕ, z < 2 ^ 64 → isFinite z → okeyN z = okeyN x →
      feq z x ∧ (¬ isZero x → z = x) := by
    intro z hz hfz hkz
    refine ⟨feq_of_okeyN_eq hz hx hfz hf hkz, fun hnz => ?_⟩
    rcases okeyN_inj hz hx hkz with h | h
    · exact h
    · exact absurd h.2 hnz
  rcases lt_trichotomy n 0 with hn | hn | hn
  · have h1 : add x n = nextDown^[n.natAbs] x := by
      unfold add
      rw [if_neg hn.ne, if_neg (by omega : ¬ (0:ℤ) < n)]
    have hdown := iterDown_okey n.natAbs x hx hf (by omega)
    have h2 : add (nextDown^[n.natAbs] x) (-n) =
        nextUp^[n.natAbs] (nextDown^[n.natAbs] x) := by
      unfold add
      rw [if_neg (by omega : ¬ -n = 0), if_pos (by omega : (0:ℤ) < -n),
        Int.natAbs_neg]
    have hup := iterUp_okey n.natAbs (nextDown^[n.natAbs] x)
      hdown.1 hdown.2.1 (by rw [hdown.2.2]; omega)
    rw [h1, h2]
    exact tail _ hup.1 hup.2.1 (by rw [hup.2.2, hdown.2.2]; ring)
  · subst hn
    have h0 : add x 0 = x := by unfold add; rw [if_pos rfl]
    rw [neg_zero, h0, h0]
    exact tail x hx hf rfl
  · have h1 : add x n = nextUp^[n.natAbs] x := by
      unfold add
      rw [if_neg hn.ne', if_pos hn]
    have hup := iterUp_okey n.natAbs x hx hf (by omega)
    have h2 : add (nextUp^[n.natAbs] x) (-n) =
        nextDown^[n.natAbs] (nextUp^[n.natAbs] x) := by
      unfold add
      rw [if_neg (by omega : ¬ -n = 0), if_neg (by omega : ¬ (0:ℤ) < -n),
        Int.natAbs_neg]
    have hdown := iterDown_okey n.natAbs (nextUp^[n.natAbs] x)
      hup.1 hup.2.1 (by rw [hup.2.2]; omega)
    rw [h1, h2]
    exact tail _ hdown.1 hdown.2.1 (by rw [hdown.2.2, hup.2.2]; ring)

/-- Witness for C6 at `x = 1.0`, `n = 5`. -/
theorem c6_add_round_trip_witness :
    feq (add (add oneBits 5) (-5)) oneBits ∧
      (¬ isZero oneBits → add (add oneBits 5) (-5) = oneBits) :=
  c6_add_round_trip oneBits 5 (by decide) (by decide) (by decide) (by decide)

/-- Claim C10 counterexample: the loop of `ulp.add` runs `abs n`
iterations, which depends on the input `n`, so the running time of `add`
is not input-size-independent. -/
theorem c10_add_not_constant_time :
    addIterations oneBits 1000000 = 1000000 ∧
    addIterations oneBits 1 = 1 ∧
    (1000000 : ℕ) ≠ 1 := by
  refine ⟨by decide, by decide, by decide⟩

/-- Claim C10 as amended: `diff` is a straight-line bit computation, but
`add` performs exactly `abs n` `nextafter` iterations — an unbounded,
input-dependent amount of work. -/
theorem c10_add_iterations :
    (∀ x : ℕ, ∀ n : ℤ, 0 < n → add x n = nextUp^[addIterations x n] x) ∧
    (∀ x : ℕ, ∀ n : ℤ, n < 0 → add x n = nextDown^[addIterations x n] x) ∧
    (∀ B : ℕ, ∃ n : ℤ, B < addIterations oneBits n) := by
  refine ⟨?_, ?_, fun B => ⟨(B : ℤ) + 1, ?_⟩⟩
  · intro x n hn
    unfold add addIterations
    rw [if_neg hn.ne', if_pos hn]
  · intro x n hn
    unfold add addIterations
    rw [if_neg hn.ne, if_neg (by omega : ¬ (0:ℤ) < n)]
  · unfold addIterations
    omega

/-- Witness for C10 (amended) at `x = 1.0`, `n = 3`. -/
theorem c10_add_iterations_witness :
    add oneBits 3 = nextUp^[addIterations oneBits 3] oneBits :=
  c10_add_iterations.1 oneBits 3 (by decide)

end Neon
